import Mathlib

/-!
Verification of BarePD core components against their natural-language design.

The development shallowly embeds three parts of the firmware:

* `BarePD.FileIO` — the virtual file table of `src/pd_fileio.cpp`
  (`barepd_open`, `pd_fileio_read`, `pd_fileio_lseek`, `pd_fileio_close`,
  `ReopenAndSeek`).  The backing Circle FAT filesystem is modelled as a byte
  list together with a sequential read cursor: `FileOpen` yields cursor `0`,
  `FileRead` returns the next `count` bytes (fewer at end of file) and
  advances the cursor, `FileClose` discards the cursor.  Machine `unsigned`
  arithmetic is modelled with `Nat`, with an explicit `% 2^32` where the C
  code can wrap (the seek target computation).
* `BarePD.Audio` — the refill arithmetic of `src/pdsounddevice.cpp`
  (`CPdSoundI2S::FillQueue` and the float → s16 sample conversion).  Audio
  samples are modelled as rationals; the `(s16)` cast is truncation toward
  zero.
* `BarePD.Fudi` — the FUDI line protocol parser of `src/pd_fudi.cpp`
  (`ProcessByte`, `ProcessBuffer`, `ParseMessage`, `ParseAtom`, `SendFloat`).
  The libpd message entry points are modelled by an `accept` predicate on
  receiver names (a libpd call returns 0 exactly when the named receiver
  exists); a dispatch is recorded as a `PdEvent`.

Loops whose C termination argument is "each iteration reads at least one
byte" are written with an explicit fuel parameter that provably dominates
the iteration count, so that all definitions reduce on concrete inputs.
-/

namespace BarePD

namespace FileIO

/-- Modulus of the 32-bit `unsigned` arithmetic used by `pd_fileio_lseek`. -/
def U32MOD : Nat := 2 ^ 32

/-- Value of an `int` expression converted to C `unsigned` (mod `2^32`). -/
def u32 (i : Int) : Nat := (i % (U32MOD : Int)).toNat

/-- One open file session (`struct FileEntry` of `pd_fileio.cpp`), for a
valid slot: `cursor` is the read position of the backing Circle file handle
(`hFile`), `nSize` the cached size, `nPosition` the logical offset. -/
structure Session where
  cursor : Nat
  nSize : Nat
  nPosition : Nat
  deriving DecidableEq, Repr

/-- Bytes returned by `CFATFileSystem::FileRead` on a file with the given
content when the handle's sequential position is `cur`: the next `count`
bytes, fewer at end of file.  The handle advances by the returned length. -/
def fsRead (content : List Nat) (cur count : Nat) : List Nat :=
  (content.drop cur).take count

/-- Loop body shared by `ReopenAndSeek` and the forward-seek branch of
`pd_fileio_lseek`: read and discard `toSkip` bytes in chunks of at most 512,
stopping early at end of file.  Returns the final cursor.  `fuel` bounds the
iteration count; each iteration reads at least one byte, so `fuel = toSkip`
is always enough. -/
def skipLoopAux (content : List Nat) : Nat → Nat → Nat → Nat
  | 0, cur, _ => cur
  | fuel + 1, cur, toSkip =>
    if toSkip = 0 then cur
    else if (fsRead content cur (min toSkip 512)).length = 0 then cur
    else skipLoopAux content fuel
      (cur + (fsRead content cur (min toSkip 512)).length)
      (toSkip - (fsRead content cur (min toSkip 512)).length)

/-- Discard-read `toSkip` bytes starting from cursor `cur`. -/
def skipLoop (content : List Nat) (cur toSkip : Nat) : Nat :=
  skipLoopAux content toSkip cur toSkip

/-- Model of `ReopenAndSeek`: close the backing handle, reopen it (cursor
`0`), skip forward to `nTargetPos` by discard-reads, and record the new
logical position.  The model filesystem reopens an existing file without
failure, so the `false` branch of the C function does not arise. -/
def ReopenAndSeek (content : List Nat) (e : Session) (nTargetPos : Nat) : Session :=
  let cur := if 0 < nTargetPos then skipLoop content 0 nTargetPos else 0
  { cursor := cur, nSize := e.nSize, nPosition := nTargetPos }

/-- Seek target of `pd_fileio_lseek` before the `unsigned` conversion, as
computed by the `switch (whence)`: absolute, relative to the current
position, or relative to the cached size. -/
def targetInt (e : Session) (offset : Int) (whence : Nat) : Int :=
  match whence with
  | 0 => offset
  | 1 => (e.nPosition : Int) + offset
  | _ => (e.nSize : Int) + offset

/-- Seek target after the conversion to `unsigned` (`nNewPos` before the
clamp in `pd_fileio_lseek`). -/
def rawTarget (e : Session) (offset : Int) (whence : Nat) : Nat :=
  u32 (targetInt e offset whence)

/-- Value of `nNewPos` after the `if (nNewPos > pEntry->nSize)` clamp. -/
def clampedTarget (e : Session) (offset : Int) (whence : Nat) : Nat :=
  if e.nSize < rawTarget e offset whence then e.nSize
  else rawTarget e offset whence

/-- Model of `pd_fileio_lseek` on a valid session: compute the target in
32-bit `unsigned` arithmetic, clamp it above to the cached size, then move
backward by `ReopenAndSeek` or forward by discard-reads.  Returns `none` for
a `whence` outside 0..2 (C returns `-1`); otherwise the updated session and
the returned new offset. -/
def pd_fileio_lseek (content : List Nat) (e : Session) (offset : Int)
    (whence : Nat) : Option (Session × Nat) :=
  if 3 ≤ whence then none
  else if clampedTarget e offset whence < e.nPosition then
    some (ReopenAndSeek content e (clampedTarget e offset whence),
          clampedTarget e offset whence)
  else if e.nPosition < clampedTarget e offset whence then
    some ({ cursor := skipLoop content e.cursor
              (clampedTarget e offset whence - e.nPosition),
            nSize := e.nSize, nPosition := clampedTarget e offset whence },
          clampedTarget e offset whence)
  else
    some (e, clampedTarget e offset whence)

/-- Model of `pd_fileio_read` on a valid session: `count = 0` is rejected
with `-1` (the C code treats it like a null buffer); otherwise delegate to
the backing sequential read, return `0` at end of file, and advance the
logical position by the amount actually read.  The result carries the
updated session, the C return value, and the bytes placed in the buffer. -/
def pd_fileio_read (content : List Nat) (e : Session) (count : Nat) :
    Session × Int × List Nat :=
  if count = 0 then (e, -1, [])
  else if (fsRead content e.cursor count).length = 0 then (e, 0, [])
  else ({ cursor := e.cursor + (fsRead content e.cursor count).length,
          nSize := e.nSize,
          nPosition := e.nPosition + (fsRead content e.cursor count).length },
        ((fsRead content e.cursor count).length : Int),
        fsRead content e.cursor count)

/-- Invariant of a reachable valid session on a backing file with the given
content: the backing cursor agrees with the logical offset, the offset is
within the cached size, and the cached size is the file length (established
at open by the read-to-exhaustion pass). -/
def Inv (content : List Nat) (e : Session) : Prop :=
  e.cursor = e.nPosition ∧ e.nPosition ≤ e.nSize ∧ content.length = e.nSize

instance (content : List Nat) (e : Session) : Decidable (Inv content e) :=
  inferInstanceAs (Decidable (_ ∧ _ ∧ _))

theorem fsRead_length (content : List Nat) (cur count : Nat) :
    (fsRead content cur count).length = min count (content.length - cur) := by
  simp [fsRead]

theorem skipLoopAux_eq (content : List Nat) :
    ∀ fuel cur toSkip, toSkip ≤ fuel →
      skipLoopAux content fuel cur toSkip =
        min (cur + toSkip) (max cur content.length) := by
  intro fuel
  induction fuel with
  | zero =>
    intro cur toSkip h
    have h0 : toSkip = 0 := Nat.le_zero.mp h
    subst h0
    simp only [skipLoopAux]
    omega
  | succ n ih =>
    intro cur toSkip h
    by_cases h0 : toSkip = 0
    · subst h0
      have hz : skipLoopAux content (n + 1) cur 0 = cur := by
        simp [skipLoopAux]
      rw [hz]
      omega
    · have hlen := fsRead_length content cur (min toSkip 512)
      by_cases hr : (fsRead content cur (min toSkip 512)).length = 0
      · simp only [skipLoopAux, if_neg h0, if_pos hr]
        omega
      · simp only [skipLoopAux, if_neg h0, if_neg hr]
        rw [ih _ _ (by omega)]
        omega

theorem skipLoop_eq (content : List Nat) (cur toSkip : Nat) :
    skipLoop content cur toSkip = min (cur + toSkip) (max cur content.length) :=
  skipLoopAux_eq content toSkip cur toSkip (Nat.le_refl _)

theorem clampedTarget_le (e : Session) (offset : Int) (whence : Nat) :
    clampedTarget e offset whence ≤ e.nSize ∧
      clampedTarget e offset whence = min (rawTarget e offset whence) e.nSize := by
  simp only [clampedTarget]
  split <;> omega

/-- Second component of a successful `pd_fileio_lseek`: the clamped
32-bit target. -/
theorem lseek_snd (content : List Nat) (e : Session) (offset : Int)
    (whence : Nat) (hw : whence < 3) :
    (pd_fileio_lseek content e offset whence).map Prod.snd =
      some (clampedTarget e offset whence) := by
  simp only [pd_fileio_lseek, if_neg (by omega : ¬ 3 ≤ whence)]
  split
  · rfl
  · split <;> rfl

/-- Successful seeks preserve the session invariant. -/
theorem lseek_inv (content : List Nat) (e : Session) (offset : Int)
    (whence : Nat) (s : Session) (r : Nat) (hinv : Inv content e)
    (h : pd_fileio_lseek content e offset whence = some (s, r)) :
    Inv content s := by
  obtain ⟨hc, hp, hl⟩ := hinv
  have hnew := (clampedTarget_le e offset whence).1
  simp only [pd_fileio_lseek] at h
  by_cases hw : 3 ≤ whence
  · simp [if_pos hw] at h
  simp only [if_neg hw] at h
  by_cases hb : clampedTarget e offset whence < e.nPosition
  · simp only [if_pos hb, Option.some.injEq, Prod.mk.injEq] at h
    obtain ⟨hs, -⟩ := h
    subst hs
    refine ⟨?_, hnew, hl⟩
    simp only [ReopenAndSeek]
    by_cases h0 : 0 < clampedTarget e offset whence
    · simp only [if_pos h0, skipLoop_eq]
      omega
    · simp only [if_neg h0]
      omega
  · simp only [if_neg hb] at h
    by_cases hf : e.nPosition < clampedTarget e offset whence
    · simp only [if_pos hf, Option.some.injEq, Prod.mk.injEq] at h
      obtain ⟨hs, -⟩ := h
      subst hs
      refine ⟨?_, hnew, hl⟩
      simp only [skipLoop_eq]
      omega
    · simp only [if_neg hf, Option.some.injEq, Prod.mk.injEq] at h
      obtain ⟨hs, -⟩ := h
      subst hs
      exact ⟨hc, hp, hl⟩

/-- Reads preserve the session invariant, and the bytes a read returns are
exactly the file content at the logical offset. -/
theorem read_inv (content : List Nat) (e : Session) (count : Nat)
    (hinv : Inv content e) :
    Inv content (pd_fileio_read content e count).1 ∧
    (pd_fileio_read content e count).2.2 =
      (content.drop e.nPosition).take count := by
  obtain ⟨hc, hp, hl⟩ := hinv
  simp only [pd_fileio_read]
  by_cases h0 : count = 0
  · subst h0
    simp only [if_pos rfl]
    exact ⟨⟨hc, hp, hl⟩, by simp⟩
  · simp only [if_neg h0]
    have hlen := fsRead_length content e.cursor count
    by_cases hr : (fsRead content e.cursor count).length = 0
    · simp only [if_pos hr]
      refine ⟨⟨hc, hp, hl⟩, ?_⟩
      have hnil : fsRead content e.cursor count = [] :=
        List.length_eq_zero.mp hr
      simp only [fsRead] at hnil
      rw [← hc]
      exact hnil.symm
    · simp only [if_neg hr]
      refine ⟨⟨?_, ?_, hl⟩, ?_⟩
      · simp [hc]
      · simp only []
        omega
      · simp only [fsRead, hc]

/-- The cached size is untouched by a read. -/
theorem read_nSize (content : List Nat) (e : Session) (count : Nat) :
    (pd_fileio_read content e count).1.nSize = e.nSize := by
  simp only [pd_fileio_read]
  split
  · rfl
  · split <;> rfl

/-- One seek call: apply `pd_fileio_lseek`, keeping the previous session
when the call reports failure (C returns `-1` and leaves the entry alone). -/
def runSeek (content : List Nat) (e : Session) (p : Int × Nat) : Session :=
  match pd_fileio_lseek content e p.1 p.2 with
  | some (s, _) => s
  | none => e

/-- A sequence of seek calls applied in order. -/
def applySeeks (content : List Nat) (e : Session) (seeks : List (Int × Nat)) :
    Session :=
  seeks.foldl (runSeek content) e

theorem runSeek_inv (content : List Nat) (e : Session) (p : Int × Nat)
    (hinv : Inv content e) : Inv content (runSeek content e p) := by
  simp only [runSeek]
  split
  next s r heq => exact lseek_inv content e p.1 p.2 s r hinv heq
  next => exact hinv

theorem applySeeks_inv (content : List Nat) (seeks : List (Int × Nat)) :
    ∀ e : Session, Inv content e → Inv content (applySeeks content e seeks) := by
  induction seeks with
  | nil => intro e h; exact h
  | cons p rest ih =>
    intro e h
    exact ih _ (runSeek_inv content e p h)

/-- C1 (counterexample): on a 5-byte file with the session at offset 0,
`Seek(handle, -3, SEEK_CUR)` has the negative target `-3`; the claim says
the result is clamped to `0`, but the code converts the target to `unsigned`
(wrapping to `2^32 - 3`) and clamps only from above, returning the cached
size `5`. -/
theorem C1_counterexample :
    (pd_fileio_lseek [10, 20, 30, 40, 50] ⟨0, 5, 0⟩ (-3) 1).map Prod.snd =
        some 5 ∧
    (pd_fileio_lseek [10, 20, 30, 40, 50] ⟨0, 5, 0⟩ (-3) 1).map Prod.snd ≠
        some 0 := by
  decide

/-- C1 (amended): for every valid handle and `whence` in 0..2, the seek
target is computed from `whence` in 32-bit unsigned arithmetic (negative
targets wrap modulo `2^32`) and is clamped from above to the cached size
only; the returned offset is `min target size`.  In particular a negative
target whose wrapped value exceeds the size yields the cached size, not 0. -/
theorem C1_lseek_clamps_above_only (content : List Nat) (e : Session)
    (offset : Int) (whence : Nat) (hw : whence < 3) :
    (pd_fileio_lseek content e offset whence).map Prod.snd =
      some (min (rawTarget e offset whence) e.nSize) ∧
    (targetInt e offset whence < 0 →
      (e.nSize : Int) < 2 ^ 32 + targetInt e offset whence →
      (pd_fileio_lseek content e offset whence).map Prod.snd = some e.nSize) := by
  have h1 := lseek_snd content e offset whence hw
  have h2 := (clampedTarget_le e offset whence).2
  constructor
  · rw [h1, h2]
  · intro hneg hsz
    rw [h1, h2]
    have hr : (rawTarget e offset whence : Int) =
        2 ^ 32 + targetInt e offset whence := by
      simp only [rawTarget, u32, U32MOD]
      omega
    have hm : min (rawTarget e offset whence) e.nSize = e.nSize := by omega
    rw [hm]

theorem C1_lseek_clamps_above_only_witness :
    (pd_fileio_lseek [10, 20, 30, 40, 50] ⟨0, 5, 0⟩ (-3) 1).map Prod.snd =
      some 5 :=
  (C1_lseek_clamps_above_only [10, 20, 30, 40, 50] ⟨0, 5, 0⟩ (-3) 1
    (by decide)).2 (by decide) (by decide)

/-- C2: for every file content, every reachable valid session on it, and
every sequence of seek calls (forward or backward), reading `count` bytes
afterwards returns exactly the bytes of the content at the resulting
logical offset — seek-then-read agrees with reading from the start and
discarding the first `offset` bytes. -/
theorem C2_seek_then_read (content : List Nat) (e : Session)
    (seeks : List (Int × Nat)) (count : Nat) (hinv : Inv content e) :
    Inv content (applySeeks content e seeks) ∧
    (pd_fileio_read content (applySeeks content e seeks) count).2.2 =
      (content.drop (applySeeks content e seeks).nPosition).take count := by
  have h1 := applySeeks_inv content seeks e hinv
  exact ⟨h1, (read_inv content _ count h1).2⟩

theorem C2_seek_then_read_witness :
    (pd_fileio_read [1, 2, 3, 4]
        (applySeeks [1, 2, 3, 4] ⟨0, 4, 0⟩ [(3, 0), (1, 0)]) 2).2.2 =
      [2, 3] := by
  have h := (C2_seek_then_read [1, 2, 3, 4] ⟨0, 4, 0⟩ [(3, 0), (1, 0)] 2
    (by decide)).2
  rw [h]
  decide

/-- C8: for every valid session whose backing content length equals the
cached size, a read never advances the logical offset beyond the cached
size (the invariant is preserved, and every successful seek also lands at
an offset within the size), and a read issued at or beyond the cached size
returns 0 and leaves the session unchanged. -/
theorem C8_read_bounded (content : List Nat) (e : Session) (count : Nat)
    (hinv : Inv content e) (hcount : 0 < count) :
    (pd_fileio_read content e count).1.nPosition ≤ e.nSize ∧
    Inv content (pd_fileio_read content e count).1 ∧
    (∀ offset whence s r,
      pd_fileio_lseek content e offset whence = some (s, r) →
        s.nPosition ≤ s.nSize) ∧
    (e.nSize ≤ e.nPosition →
      (pd_fileio_read content e count).2.1 = 0 ∧
      (pd_fileio_read content e count).1 = e) := by
  obtain ⟨hc, hp, hl⟩ := hinv
  have hread := read_inv content e count ⟨hc, hp, hl⟩
  have hsz := read_nSize content e count
  refine ⟨?_, hread.1, ?_, ?_⟩
  · have := hread.1.2.1
    omega
  · intro offset whence s r h
    have hs := lseek_inv content e offset whence s r ⟨hc, hp, hl⟩ h
    exact hs.2.1
  · intro heof
    have hr : (fsRead content e.cursor count).length = 0 := by
      have := fsRead_length content e.cursor count
      omega
    have hnil : fsRead content e.cursor count = [] :=
      List.length_eq_zero.mp hr
    simp [pd_fileio_read, if_neg (by omega : ¬ count = 0), hnil]

theorem C8_read_bounded_witness :
    (pd_fileio_read [7, 8] ⟨2, 2, 2⟩ 1).2.1 = 0 ∧
    (pd_fileio_read [7, 8] ⟨2, 2, 2⟩ 1).1 = (⟨2, 2, 2⟩ : Session) :=
  (C8_read_bounded [7, 8] ⟨2, 2, 2⟩ 1 (by decide) (by decide)).2.2.2
    (by decide)

/-- One slot of the descriptor table as observed through the public API:
`some rec` when the slot's `bValid` flag is set, `none` otherwise.  The C
struct keeps `szPath`, `nSize`, `nPosition` bytes also in invalid slots,
but no operation reads them there. -/
structure FileRec where
  szPath : String
  nSize : Nat
  nPosition : Nat
  deriving DecidableEq, Repr

/-- Size of the fixed descriptor table (`MAX_OPEN_FILES`). -/
def MAX_OPEN_FILES : Nat := 16

/-- Offset added to a slot index to form a public descriptor
(`FD_OFFSET`, reserving 0..9 for standard streams). -/
def FD_OFFSET : Int := 10

/-- Model of `pd_fileio_close`: translate the descriptor to a slot, reject
negative, out-of-range, or invalid slots with `-1`, otherwise release the
slot and return 0. -/
def pd_fileio_close (table : List (Option FileRec)) (fd : Int) :
    List (Option FileRec) × Int :=
  if fd - FD_OFFSET < 0 ∨ (MAX_OPEN_FILES : Int) ≤ fd - FD_OFFSET then
    (table, -1)
  else
    match table.getD (fd - FD_OFFSET).toNat none with
    | none => (table, -1)
    | some _ => (table.set (fd - FD_OFFSET).toNat none, 0)

theorem getD_set_self {α : Type} (d : α) :
    ∀ (l : List α) (i : Nat), (l.set i d).getD i d = d := by
  intro l
  induction l with
  | nil => intro i; simp [List.getD]
  | cons a t ih =>
    intro i
    cases i with
    | zero => simp [List.getD]
    | succ j => simpa [List.getD] using ih j

theorem getD_set_ne {α : Type} (d : α) :
    ∀ (l : List α) (i j : Nat) (x : α), j ≠ i →
      (l.set i x).getD j d = l.getD j d := by
  intro l
  induction l with
  | nil => intro i j x _; simp
  | cons a t ih =>
    intro i j x hne
    cases i with
    | zero =>
      cases j with
      | zero => exact absurd rfl hne
      | succ k => simp [List.getD]
    | succ i' =>
      cases j with
      | zero => simp [List.getD]
      | succ k => simpa [List.getD] using ih i' k x (by omega)

/-- C10: closing a descriptor whose slot is not valid — below the offset
10, at or above 26, or already closed — returns `-1` and leaves the table
unchanged; closing a valid descriptor returns 0, invalidates exactly that
slot (all other slots keep their contents), and a second close of the same
descriptor then returns `-1`. -/
theorem C10_close_strict (table : List (Option FileRec)) (fd : Int)
    (hlen : table.length = MAX_OPEN_FILES) :
    ((fd < FD_OFFSET ∨ FD_OFFSET + (MAX_OPEN_FILES : Int) ≤ fd ∨
        table.getD (fd - FD_OFFSET).toNat none = none) →
      pd_fileio_close table fd = (table, -1)) ∧
    (∀ rec : FileRec, FD_OFFSET ≤ fd → fd < FD_OFFSET + (MAX_OPEN_FILES : Int) →
      table.getD (fd - FD_OFFSET).toNat none = some rec →
      (pd_fileio_close table fd).2 = 0 ∧
      (pd_fileio_close table fd).1.getD (fd - FD_OFFSET).toNat none = none ∧
      (∀ j, j ≠ (fd - FD_OFFSET).toNat →
        (pd_fileio_close table fd).1.getD j none = table.getD j none) ∧
      (pd_fileio_close (pd_fileio_close table fd).1 fd).2 = -1) := by
  constructor
  · intro h
    simp only [pd_fileio_close]
    by_cases hr : fd - FD_OFFSET < 0 ∨ (MAX_OPEN_FILES : Int) ≤ fd - FD_OFFSET
    · rw [if_pos hr]
    · rw [if_neg hr]
      have hnone : table.getD (fd - FD_OFFSET).toNat none = none := by
        rcases h with h | h | h
        · exfalso
          simp only [FD_OFFSET, MAX_OPEN_FILES] at hr h
          omega
        · exfalso
          simp only [FD_OFFSET, MAX_OPEN_FILES] at hr h
          omega
        · exact h
      rw [hnone]
  · intro rec h1 h2 h3
    have hcond : ¬ (fd - FD_OFFSET < 0 ∨ (MAX_OPEN_FILES : Int) ≤ fd - FD_OFFSET) := by
      simp only [FD_OFFSET, MAX_OPEN_FILES] at h1 h2 ⊢
      omega
    have hfirst : pd_fileio_close table fd =
        (table.set (fd - FD_OFFSET).toNat none, 0) := by
      simp only [pd_fileio_close, if_neg hcond, h3]
    refine ⟨by rw [hfirst], ?_, ?_, ?_⟩
    · rw [hfirst]
      exact getD_set_self none table (fd - FD_OFFSET).toNat
    · intro j hj
      rw [hfirst]
      exact getD_set_ne none table (fd - FD_OFFSET).toNat j none hj
    · rw [hfirst]
      simp only [pd_fileio_close, if_neg hcond,
        getD_set_self none table (fd - FD_OFFSET).toNat]

theorem C10_close_strict_witness :
    (pd_fileio_close (List.replicate 16 (some ⟨"a", 1, 0⟩)) 12).2 = 0 ∧
    (pd_fileio_close
      (pd_fileio_close (List.replicate 16 (some ⟨"a", 1, 0⟩)) 12).1 12).2 =
      -1 := by
  have h := (C10_close_strict (List.replicate 16 (some ⟨"a", 1, 0⟩)) 12
    (by decide)).2 ⟨"a", 1, 0⟩ (by decide) (by decide) (by decide)
  exact ⟨h.1, h.2.2.2⟩

/-- Path normalization of `barepd_open`: strip one leading `./`, then all
leading `/` characters. -/
def normalizePath (p : List Char) : List Char :=
  match p with
  | '.' :: '/' :: rest => rest.dropWhile (fun c => c = '/')
  | _ => p.dropWhile (fun c => c = '/')

/-- First invalid slot of the table (`FindFreeSlot`). -/
def findFreeSlot (table : List (Option FileRec)) : Option Nat :=
  table.findIdx? fun e => e.isNone

/-- Size-measuring loop of `barepd_open`: read to exhaustion in 512-byte
chunks, accumulating the total.  `fuel` bounds the iteration count; each
iteration reads at least one byte, so `content.length + 1` is enough. -/
def sizeLoopAux (content : List Nat) : Nat → Nat → Nat → Nat
  | 0, _, acc => acc
  | fuel + 1, cur, acc =>
    if (fsRead content cur 512).length = 0 then acc
    else sizeLoopAux content fuel (cur + (fsRead content cur 512).length)
      (acc + (fsRead content cur 512).length)

/-- Cached size established at open by the read-to-exhaustion pass. -/
def measuredSize (content : List Nat) : Nat :=
  sizeLoopAux content (content.length + 1) 0 0

theorem sizeLoopAux_eq (content : List Nat) :
    ∀ fuel cur acc, content.length - cur ≤ fuel →
      sizeLoopAux content fuel cur acc = acc + (content.length - cur) := by
  intro fuel
  induction fuel with
  | zero =>
    intro cur acc h
    simp only [sizeLoopAux]
    omega
  | succ n ih =>
    intro cur acc h
    have hlen := fsRead_length content cur 512
    by_cases hr : (fsRead content cur 512).length = 0
    · simp only [sizeLoopAux, if_pos hr]
      omega
    · simp only [sizeLoopAux, if_neg hr]
      rw [ih _ _ (by omega)]
      omega

theorem measuredSize_eq (content : List Nat) :
    measuredSize content = content.length := by
  have h := sizeLoopAux_eq content (content.length + 1) 0 0 (by omega)
  simpa [measuredSize] using h

/-- Model of `barepd_open`; `fs` is the backing filesystem, mapping a
normalized path to the content of the file when it exists (`FileOpen`
returns 0 exactly when the lookup fails).  Note the source discards the
`oflag` argument (`(void)oflag`): the flags never influence the result.
Returns the updated table and the C return value (`slot + FD_OFFSET` or
`-1`). -/
def barepd_open (fs : List Char → Option (List Nat))
    (table : List (Option FileRec)) (path : List Char) (oflag : Int) :
    List (Option FileRec) × Int :=
  if (normalizePath path).isEmpty then (table, -1)
  else
    match findFreeSlot table with
    | none => (table, -1)
    | some slot =>
      match fs (normalizePath path) with
      | none => (table, -1)
      | some content =>
        (table.set slot
          (some ⟨⟨normalizePath path⟩, measuredSize content, 0⟩),
         (slot : Int) + FD_OFFSET)

/-- Model of `barepd_fopen`: reject any mode whose first character is not
`r` or `R` (a null `FILE*`, modelled as `none`), otherwise delegate to
`barepd_open` with flags 0; a negative descriptor also yields null. -/
def barepd_fopen (fs : List Char → Option (List Nat))
    (table : List (Option FileRec)) (filename : List Char)
    (mode : List Char) : List (Option FileRec) × Option Int :=
  match mode with
  | [] => (table, none)
  | c :: _ =>
    if c = 'r' ∨ c = 'R' then
      if (barepd_open fs table filename 0).2 < 0 then
        ((barepd_open fs table filename 0).1, none)
      else
        ((barepd_open fs table filename 0).1,
         some (barepd_open fs table filename 0).2)
    else (table, none)

/-- C6 (counterexample): `barepd_open` ignores its flags argument.  On a
filesystem holding the one-byte file `a` and an empty table, opening with
`oflag = 1` (`O_WRONLY`, a write request) succeeds with descriptor 10 and
allocates a session in slot 0, instead of failing with `UnsupportedMode`
and allocating nothing. -/
theorem C6_counterexample :
    (barepd_open (fun p => if p = ['a'] then some [65] else none)
        (List.replicate 16 none) ['a'] 1).2 = 10 ∧
    (barepd_open (fun p => if p = ['a'] then some [65] else none)
        (List.replicate 16 none) ['a'] 1).1.getD 0 none =
      some ⟨"a", 1, 0⟩ := by
  decide

/-- C6 (amended): the flags argument of `barepd_open` has no effect at all
— a write-flagged open succeeds as a read-only session whenever the same
read-only open would; the read-only policy is enforced only by the
`barepd_fopen` wrapper, which returns null and leaves the table unchanged
for every mode string not beginning with `r` or `R`. -/
theorem C6_open_ignores_flags (fs : List Char → Option (List Nat))
    (table : List (Option FileRec)) (path : List Char) (oflag : Int)
    (mode : List Char)
    (hm : ∀ c rest, mode = c :: rest → c ≠ 'r' ∧ c ≠ 'R') :
    barepd_open fs table path oflag = barepd_open fs table path 0 ∧
    barepd_fopen fs table path mode = (table, none) := by
  constructor
  · rfl
  · cases mode with
    | nil => rfl
    | cons c rest =>
      obtain ⟨h1, h2⟩ := hm c rest rfl
      simp [barepd_fopen, h1, h2]

theorem C6_open_ignores_flags_witness :
    barepd_fopen (fun _ => none) (List.replicate 16 none) ['a'] ['w'] =
      (List.replicate 16 none, none) :=
  (C6_open_ignores_flags (fun _ => none) (List.replicate 16 none) ['a'] 0
    ['w'] (by
      intro c rest h
      cases h
      exact ⟨by decide, by decide⟩)).2

end FileIO

namespace Audio

/-- Engine tick computation shared by `CPdSoundI2S::FillQueue` and
`CPdSoundPWM::GetChunk`: `nTicks = nFrames / nBlockSize`, raised to 1 when
the integer division is zero. -/
def fillTicks (nWriteFrames nBlockSize : Nat) : Nat :=
  if nWriteFrames / nBlockSize = 0 then 1 else nWriteFrames / nBlockSize

/-- Modelled from the spec: the tick count the refill step prescribes,
"the number of whole ticks needed to cover `requestedFrames`, rounding up
to at least one tick" — the ceiling of `requestedFrames / blockSize`.
Present only to compare against what the code computes. -/
def ticksSpec (nFrames nBlockSize : Nat) : Nat :=
  (nFrames + nBlockSize - 1) / nBlockSize

/-- Per-iteration write size of `CPdSoundI2S::FillQueue`
(`nFramesPerWrite`). -/
def FRAMES_PER_WRITE : Nat := 256

/-- Execution of the `while (nFrames > 0)` loop of
`CPdSoundI2S::FillQueue`, returning (integer samples written to the queue,
engine ticks invoked, loop iterations).  Each iteration takes
`nWriteFrames = min nFrames 256`, invokes the engine for
`fillTicks nWriteFrames nBlockSize` ticks, and writes
`nWriteFrames × nChannels` s16 samples.  `fuel` bounds the iteration
count; each iteration consumes at least one frame, so `fuel = nFrames`
is enough. -/
def fillQueueAux (nBlockSize nChannels : Nat) : Nat → Nat → Nat × Nat × Nat
  | 0, _ => (0, 0, 0)
  | fuel + 1, nFrames =>
    if nFrames = 0 then (0, 0, 0)
    else
      (min nFrames FRAMES_PER_WRITE * nChannels +
        (fillQueueAux nBlockSize nChannels fuel
          (nFrames - min nFrames FRAMES_PER_WRITE)).1,
       fillTicks (min nFrames FRAMES_PER_WRITE) nBlockSize +
        (fillQueueAux nBlockSize nChannels fuel
          (nFrames - min nFrames FRAMES_PER_WRITE)).2.1,
       1 + (fillQueueAux nBlockSize nChannels fuel
          (nFrames - min nFrames FRAMES_PER_WRITE)).2.2)

/-- One call of `CPdSoundI2S::FillQueue nFrames`. -/
def FillQueue (nBlockSize nChannels nFrames : Nat) : Nat × Nat × Nat :=
  fillQueueAux nBlockSize nChannels nFrames nFrames

/-- A write of `w` frames stays below one extra tick's worth of frames:
`w ≤ fillTicks w b * b + (b - 1)`. -/
theorem le_fillTicks_mul (w b : Nat) (hb : 0 < b) :
    w ≤ fillTicks w b * b + (b - 1) := by
  have h1 : b * (w / b) + w % b = w := Nat.div_add_mod w b
  have h2 : w % b < b := Nat.mod_lt w hb
  have h2' : w % b ≤ b - 1 := Nat.le_pred_of_lt h2
  simp only [fillTicks]
  split
  next h =>
    have hw : w < b := (Nat.div_eq_zero_iff hb).mp h
    omega
  next h =>
    calc w = b * (w / b) + w % b := h1.symm
      _ ≤ b * (w / b) + (b - 1) := Nat.add_le_add_left h2' _
      _ = w / b * b + (b - 1) := by rw [Nat.mul_comm]

theorem fillQueueAux_spec (nBlockSize nChannels : Nat) (hb : 0 < nBlockSize) :
    ∀ fuel nFrames, nFrames ≤ fuel →
      (fillQueueAux nBlockSize nChannels fuel nFrames).1 =
        nFrames * nChannels ∧
      (fillQueueAux nBlockSize nChannels fuel nFrames).1 ≤
        ((fillQueueAux nBlockSize nChannels fuel nFrames).2.1 * nBlockSize +
         (fillQueueAux nBlockSize nChannels fuel nFrames).2.2 *
           (nBlockSize - 1)) * nChannels := by
  intro fuel
  induction fuel with
  | zero =>
    intro nFrames h
    have h0 : nFrames = 0 := Nat.le_zero.mp h
    subst h0
    simp [fillQueueAux]
  | succ n ih =>
    intro nFrames h
    by_cases h0 : nFrames = 0
    · subst h0
      simp [fillQueueAux]
    · have hwpos : 0 < min nFrames FRAMES_PER_WRITE := by
        simp only [FRAMES_PER_WRITE]
        omega
      have hwle : min nFrames FRAMES_PER_WRITE ≤ nFrames :=
        Nat.min_le_left _ _
      obtain ⟨ihs, ihb⟩ := ih (nFrames - min nFrames FRAMES_PER_WRITE)
        (by omega)
      simp only [fillQueueAux, if_neg h0]
      constructor
      · rw [ihs, ← Nat.add_mul]
        congr 1
        omega
      · have hstep := le_fillTicks_mul (min nFrames FRAMES_PER_WRITE)
          nBlockSize hb
        have hstep' : min nFrames FRAMES_PER_WRITE * nChannels ≤
            (fillTicks (min nFrames FRAMES_PER_WRITE) nBlockSize *
              nBlockSize + (nBlockSize - 1)) * nChannels :=
          Nat.mul_le_mul_right nChannels hstep
        have hdist :
            ((fillTicks (min nFrames FRAMES_PER_WRITE) nBlockSize +
               (fillQueueAux nBlockSize nChannels n
                 (nFrames - min nFrames FRAMES_PER_WRITE)).2.1) * nBlockSize +
             (1 + (fillQueueAux nBlockSize nChannels n
                 (nFrames - min nFrames FRAMES_PER_WRITE)).2.2) *
               (nBlockSize - 1)) * nChannels =
            (fillTicks (min nFrames FRAMES_PER_WRITE) nBlockSize *
              nBlockSize + (nBlockSize - 1)) * nChannels +
            ((fillQueueAux nBlockSize nChannels n
                (nFrames - min nFrames FRAMES_PER_WRITE)).2.1 * nBlockSize +
             (fillQueueAux nBlockSize nChannels n
                (nFrames - min nFrames FRAMES_PER_WRITE)).2.2 *
               (nBlockSize - 1)) * nChannels := by
          ring
        rw [hdist]
        exact Nat.add_le_add hstep' ihb

/-- C3 (counterexample): one refill pass of 100 frames with the engine
block size 64 and 2 channels writes `min(100, 256) × 2 = 200` integer
samples but invokes only `⌊100/64⌋ = 1` tick, so the claimed bound
`tickCount × blockSize × channels = 128` is exceeded: the bridge emits 72
samples the engine did not produce in that pass. -/
theorem C3_counterexample :
    (FillQueue 64 2 100).1 = 200 ∧ (FillQueue 64 2 100).2.1 = 1 ∧
    ¬ ((FillQueue 64 2 100).1 ≤ (FillQueue 64 2 100).2.1 * 64 * 2) := by
  decide

/-- C3 (amended): a refill pass writes exactly `requestedFrames × channels`
integer samples in total — which can exceed
`tickCount × blockSize × channels` whenever a write's frame count is not a
multiple of the block size; the bound that does hold is
`samples ≤ (ticks × blockSize + iterations × (blockSize - 1)) × channels`. -/
theorem C3_fillqueue_sample_count (nBlockSize nChannels nFrames : Nat)
    (hb : 0 < nBlockSize) :
    (FillQueue nBlockSize nChannels nFrames).1 = nFrames * nChannels ∧
    (FillQueue nBlockSize nChannels nFrames).1 ≤
      ((FillQueue nBlockSize nChannels nFrames).2.1 * nBlockSize +
       (FillQueue nBlockSize nChannels nFrames).2.2 * (nBlockSize - 1)) *
        nChannels :=
  fillQueueAux_spec nBlockSize nChannels hb nFrames nFrames (Nat.le_refl _)

theorem C3_fillqueue_sample_count_witness :
    (FillQueue 64 2 100).1 = 100 * 2 :=
  (C3_fillqueue_sample_count 64 2 100 (by decide)).1

/-- C4 (counterexample): the code's tick count for a request of
`blockSize + 1 = 65` frames at block size 64 is `⌊65/64⌋ = 1`, not the
ceiling 2 that the claim prescribes. -/
theorem C4_counterexample :
    fillTicks 65 64 = 1 ∧ ticksSpec 65 64 = 2 ∧
    fillTicks 65 64 ≠ ticksSpec 65 64 := by
  decide

/-- C4 (amended): the refill path computes the tick count as the floor of
`requestedFrames / blockSize`, raised to a minimum of one tick — not the
ceiling; a request of `blockSize + 1` frames yields 1 tick.  The count is
indeed never zero. -/
theorem C4_ticks_floor_min_one (nFrames nBlockSize : Nat) :
    fillTicks nFrames nBlockSize = max 1 (nFrames / nBlockSize) ∧
    0 < fillTicks nFrames nBlockSize := by
  simp only [fillTicks]
  generalize nFrames / nBlockSize = q
  split <;> omega

/-- Soft clip of `FillQueue` and `GetChunk`
(`if (sample > 1.0f) ... if (sample < -1.0f) ...`). -/
def clampSample (x : ℚ) : ℚ :=
  if 1 < x then 1 else if x < -1 then -1 else x

/-- Truncation toward zero: the semantics of the C `(s16)` cast applied to
an in-range float value. -/
def truncToInt (q : ℚ) : ℤ := if 0 ≤ q then ⌊q⌋ else -⌊-q⌋

/-- Float → s16 conversion of `CPdSoundI2S::FillQueue`: clamp to
`[-1, 1]`, scale by 32767, cast. -/
def floatToS16 (x : ℚ) : ℤ := truncToInt (clampSample x * 32767)

theorem truncToInt_le (q : ℚ) (n : ℤ) (h0 : 0 ≤ (n : ℚ)) (h : q ≤ (n : ℚ)) :
    truncToInt q ≤ n := by
  simp only [truncToInt]
  split
  next =>
    calc ⌊q⌋ ≤ ⌊(n : ℚ)⌋ := Int.floor_le_floor h
      _ = n := Int.floor_intCast n
  next hq =>
    have h1 : (0 : ℚ) ≤ -q := by linarith
    have h2 : 0 ≤ ⌊-q⌋ := Int.floor_nonneg.mpr h1
    have h3 : 0 ≤ n := by exact_mod_cast h0
    omega

theorem truncToInt_ge (q : ℚ) (n : ℤ) (h0 : 0 ≤ (n : ℚ)) (h : -(n : ℚ) ≤ q) :
    -n ≤ truncToInt q := by
  simp only [truncToInt]
  split
  next hq =>
    have h2 : 0 ≤ ⌊q⌋ := Int.floor_nonneg.mpr hq
    have h3 : 0 ≤ n := by exact_mod_cast h0
    omega
  next hq =>
    have h1 : -q ≤ (n : ℚ) := by linarith
    have h2 : ⌊-q⌋ ≤ n := by
      calc ⌊-q⌋ ≤ ⌊(n : ℚ)⌋ := Int.floor_le_floor h1
        _ = n := Int.floor_intCast n
    omega

theorem clampSample_mem (x : ℚ) :
    -1 ≤ clampSample x ∧ clampSample x ≤ 1 := by
  simp only [clampSample]
  split
  · norm_num
  · split
    · norm_num
    · constructor <;> linarith [lt_or_ge x (-1), lt_or_ge (1 : ℚ) x]

/-- C7: the conversion of an engine float sample to the signed-16-bit
output clamps to `[-1, 1]` before scaling by 32767, so every emitted
integer sample lies in `[-32767, 32767]`; out-of-range engine output
saturates exactly at `±32767`. -/
theorem C7_soft_clip (x : ℚ) :
    -32767 ≤ floatToS16 x ∧ floatToS16 x ≤ 32767 ∧
    (1 < x → floatToS16 x = 32767) ∧
    (x < -1 → floatToS16 x = -32767) := by
  obtain ⟨hlo, hhi⟩ := clampSample_mem x
  have hprodhi : clampSample x * 32767 ≤ ((32767 : ℤ) : ℚ) := by
    push_cast
    nlinarith
  have hprodlo : -((32767 : ℤ) : ℚ) ≤ clampSample x * 32767 := by
    push_cast
    nlinarith
  refine ⟨truncToInt_ge _ 32767 (by norm_num) hprodlo,
    truncToInt_le _ 32767 (by norm_num) hprodhi, ?_, ?_⟩
  · intro hx
    have hc : clampSample x = 1 := by simp [clampSample, hx]
    simp [floatToS16, hc, truncToInt]
  · intro hx
    have hc : clampSample x = -1 := by
      have hnot : ¬ 1 < x := by linarith
      simp [clampSample, hnot, hx]
    rw [floatToS16, hc]
    norm_num [truncToInt]

theorem C7_soft_clip_witness :
    floatToS16 2 = 32767 ∧ floatToS16 (-2) = -32767 :=
  ⟨(C7_soft_clip 2).2.2.1 (by norm_num),
   (C7_soft_clip (-2)).2.2.2 (by norm_num)⟩

end Audio

namespace Fudi

/-- Maximum buffered message length (`FUDI_MAX_MESSAGE_LEN`). -/
def FUDI_MAX_MESSAGE_LEN : Nat := 256

/-- Maximum token count kept by the tokenizer (`FUDI_MAX_ATOMS`). -/
def FUDI_MAX_ATOMS : Nat := 32

/-- A decoded atom of `ParseAtom`: a float when `strtof` consumes the
whole token, otherwise a symbol. -/
inductive Atom where
  | float (v : ℚ)
  | symbol (s : String)
  deriving DecidableEq, Repr

/-- An event dispatched into the engine by `ParseMessage` (the libpd call
that returned 0). -/
inductive PdEvent where
  | bang (recv : String)
  | float (recv : String) (v : ℚ)
  | symbol (recv : String) (sym : String)
  | message (recv : String) (verb : String) (args : List Atom)
  deriving DecidableEq, Repr

/-- Token separators of `ParseMessage` (`strtok_r` with `" \t"`). -/
def isSep (c : Char) : Bool := c == ' ' || c == '\t'

/-- Whitespace tokenization (`strtok_r` loop): maximal runs of
non-separator characters, in order.  `fuel` bounds the iteration count;
each iteration consumes at least one character, so the input length is
enough. -/
def tokenizeAux : Nat → List Char → List String
  | 0, _ => []
  | fuel + 1, cs =>
    match cs.dropWhile isSep with
    | [] => []
    | c :: rest =>
      String.mk ((c :: rest).takeWhile fun d => !isSep d) ::
        tokenizeAux fuel ((c :: rest).dropWhile fun d => !isSep d)

/-- Tokenization of `ParseMessage`: split on spaces and tabs, keeping at
most `FUDI_MAX_ATOMS` tokens (the `nTokens < FUDI_MAX_ATOMS` loop bound;
later tokens are dropped). -/
def tokenize (cs : List Char) : List String :=
  (tokenizeAux cs.length cs).take FUDI_MAX_ATOMS

/-- Decimal digit value of a character, if any. -/
def digit? (c : Char) : Option Nat :=
  if '0' ≤ c ∧ c ≤ '9' then some (c.toNat - 48) else none

/-- Longest digit run at the front of the input, and the remainder. -/
def takeDigits : List Char → List Nat × List Char
  | [] => ([], [])
  | c :: cs =>
    match digit? c with
    | some d => (d :: (takeDigits cs).1, (takeDigits cs).2)
    | none => ([], c :: cs)

/-- Value of a digit run read in base 10. -/
def digitsVal (ds : List Nat) : Nat :=
  ds.foldl (fun a d => a * 10 + d) 0

/-- Mantissa value from integer-part and fraction-part digit runs. -/
def mantissa (ip fp : List Nat) : ℚ :=
  (digitsVal ip : ℚ) + (digitsVal fp : ℚ) / (10 : ℚ) ^ fp.length

/-- Optional sign at the front of a number or exponent. -/
def parseSignInt : List Char → Int × List Char
  | '-' :: t => (-1, t)
  | '+' :: t => (1, t)
  | cs => (1, cs)

/-- Exponent tail after `e`/`E`: the whole remainder must be an optionally
signed digit run, else the token fails the whole-token check. -/
def parseWithExp (sgn : Int) (ip fp : List Nat) (t : List Char) : Option ℚ :=
  match takeDigits (parseSignInt t).2 with
  | (eds, t2) =>
    if eds.isEmpty then none
    else if t2.isEmpty then
      some ((sgn : ℚ) * mantissa ip fp *
        (10 : ℚ) ^ ((parseSignInt t).1 * (digitsVal eds : Int)))
    else none

/-- Modelled from libc `strtof` as used by `ParseAtom`, restricted to
decimal forms: optional sign, integer digits, optional `.` and fraction
digits (at least one mantissa digit in total), optional decimal exponent.
Returns the value exactly when the whole token is consumed (the
`pEnd != pAtom && *pEnd == '\0'` check of `ParseAtom`); hexadecimal,
infinity and NaN spellings of `strtof` are not modelled. -/
def parseFloat? (cs : List Char) : Option ℚ :=
  match takeDigits (parseSignInt cs).2 with
  | (ip, cs2) =>
    match (match cs2 with
           | '.' :: t => takeDigits t
           | _ => ([], cs2)) with
    | (fp, cs3) =>
      if ip.isEmpty ∧ fp.isEmpty then none
      else
        match cs3 with
        | [] => some (((parseSignInt cs).1 : ℚ) * mantissa ip fp)
        | 'e' :: t => parseWithExp (parseSignInt cs).1 ip fp t
        | 'E' :: t => parseWithExp (parseSignInt cs).1 ip fp t
        | _ => none

/-- Model of `CFudiParser::ParseAtom` on a (nonempty) token. -/
def parseAtom (s : String) : Atom :=
  match parseFloat? s.data with
  | some v => Atom.float v
  | none => Atom.symbol s

/-- Model of `CFudiParser::ParseMessage` on the accumulated buffer text.
`accept` tells which receiver names exist in the engine: a libpd send
returns 0 exactly when its receiver exists (`libpd_start_message` is
modelled as always succeeding).  Returns the event dispatched into the
engine, if any, and the C return value.  Note the `strcmp(pSecond,
"bang")` test runs before the token-count dispatch, so it fires for any
token count of at least two. -/
def ParseMessage (accept : String → Bool) (msg : String) :
    Option PdEvent × Bool :=
  match tokenize msg.data with
  | [] => (none, false)
  | [recv] =>
    if accept recv then (some (PdEvent.bang recv), true) else (none, false)
  | recv :: second :: rest =>
    if second = "bang" then
      if accept recv then (some (PdEvent.bang recv), true)
      else (none, false)
    else if rest.isEmpty then
      match parseFloat? second.data with
      | some v =>
        if accept recv then (some (PdEvent.float recv v), true)
        else (none, false)
      | none =>
        if accept recv then (some (PdEvent.symbol recv second), true)
        else (none, false)
    else
      if accept recv then
        (some (PdEvent.message recv second (rest.map parseAtom)), true)
      else (none, false)

/-- Parser state: the accumulation buffer and the events dispatched so
far (the observable libpd side effects).  The statistics counters are not
modelled. -/
structure FudiState where
  buffer : List Char
  events : List PdEvent
  deriving DecidableEq, Repr

/-- State of a freshly constructed `CFudiParser`. -/
def initState : FudiState := ⟨[], []⟩

/-- Model of `CFudiParser::ProcessByte`: ignore carriage returns; a
semicolon or newline terminates the buffered message (an empty buffer
produces nothing); any other byte accumulates, resetting the buffer when
it would exceed `FUDI_MAX_MESSAGE_LEN - 1` bytes.  Returns the new state
and whether this byte completed a message. -/
def ProcessByte (accept : String → Bool) (st : FudiState) (c : Char) :
    FudiState × Bool :=
  if c = '\r' then (st, false)
  else if c = ';' ∨ c = '\n' then
    if 0 < st.buffer.length then
      ({ buffer := [],
         events := st.events ++
           (ParseMessage accept (String.mk st.buffer)).1.toList },
       (ParseMessage accept (String.mk st.buffer)).2)
    else (st, false)
  else if st.buffer.length < FUDI_MAX_MESSAGE_LEN - 1 then
    ({ st with buffer := st.buffer ++ [c] }, false)
  else
    ({ st with buffer := [] }, false)

/-- Model of `CFudiParser::ProcessBuffer`: fold `ProcessByte` over the
bytes, counting completed messages. -/
def ProcessBuffer (accept : String → Bool) (st : FudiState)
    (bytes : List Char) : FudiState × Nat :=
  bytes.foldl
    (fun p c =>
      ((ProcessByte accept p.1 c).1,
       p.2 + if (ProcessByte accept p.1 c).2 then 1 else 0))
    (st, 0)

/-- Fraction digits of `num / den` after the decimal point, stopping when
the remainder vanishes or after `fuel` digits. -/
def fracDigits : Nat → Nat → Nat → List Char
  | 0, _, _ => []
  | fuel + 1, num, den =>
    if num = 0 then []
    else Char.ofNat (48 + num * 10 / den) ::
      fracDigits fuel (num * 10 % den) den

/-- Modelled from libc `snprintf` `%g` as used by `SendFloat`, restricted
to rationals with a short terminating decimal expansion (the only values
encoded in this development): sign, integer part, and up to six fraction
digits with trailing zeros suppressed.  The scientific notation and the
rounding of `%g` at other magnitudes are not modelled. -/
def fmtG (q : ℚ) : String :=
  (if q < 0 then "-" else "") ++
    toString ((if q < 0 then -q else q).num.toNat /
      (if q < 0 then -q else q).den) ++
    (if (fracDigits 6 ((if q < 0 then -q else q).num.toNat %
          (if q < 0 then -q else q).den)
          (if q < 0 then -q else q).den).isEmpty then ""
     else "." ++ String.mk (fracDigits 6
        ((if q < 0 then -q else q).num.toNat %
          (if q < 0 then -q else q).den)
        (if q < 0 then -q else q).den))

/-- Bytes that `CFudiParser::SendFloat` hands to the registered output
callback: `snprintf "%s %g;\n"`. -/
def sendFloatMsg (recv : String) (v : ℚ) : String :=
  recv ++ " " ++ fmtG v ++ ";\n"

/-- C5 (counterexample): the message `recv bang 1 2` has four tokens, so
the claim prescribes a variadic dispatch under `(recv, bang)` with the
argument list `[1, 2]`; but the code's `bang` special case runs before
the token-count dispatch and sends a plain trigger to `recv`, discarding
the arguments. -/
theorem C5_counterexample :
    ParseMessage (fun _ => true) "recv bang 1 2" =
      (some (PdEvent.bang "recv"), true) ∧
    ParseMessage (fun _ => true) "recv bang 1 2" ≠
      (some (PdEvent.message "recv" "bang" [Atom.float 1, Atom.float 2]),
       true) := by
  decide

/-- C5 (amended): for a message of three or more tokens whose second
token is not the literal `bang`, the second token is the verb and the
remaining tokens, each parsed by the strict whole-token float-or-symbol
rule, are dispatched as an ordered argument list under (receiver, verb);
when the second token is the literal `bang`, a plain trigger event is
dispatched to the receiver instead and the remaining tokens are
discarded. -/
theorem C5_verb_dispatch (accept : String → Bool) (msg : String)
    (recv second : String) (rest : List String)
    (htoks : tokenize msg.data = recv :: second :: rest)
    (hrest : rest ≠ []) :
    (second ≠ "bang" →
      ParseMessage accept msg =
        (if accept recv then
          (some (PdEvent.message recv second (rest.map parseAtom)), true)
         else (none, false))) ∧
    (second = "bang" →
      ParseMessage accept msg =
        (if accept recv then (some (PdEvent.bang recv), true)
         else (none, false))) := by
  have hne : ¬ (rest.isEmpty = true) := by
    cases rest with
    | nil => exact absurd rfl hrest
    | cons a t => simp
  constructor
  · intro hs
    simp only [ParseMessage, htoks, if_neg hs, if_neg hne]
  · intro hs
    simp only [ParseMessage, htoks, if_pos hs]

theorem C5_verb_dispatch_witness :
    ParseMessage (fun _ => true) "osc freq 440 amp 0.5" =
      (some (PdEvent.message "osc" "freq"
        [Atom.float 440, Atom.symbol "amp", Atom.float (1 / 2)]), true) := by
  have h := (C5_verb_dispatch (fun _ => true) "osc freq 440 amp 0.5"
    "osc" "freq" ["440", "amp", "0.5"] (by decide) (by decide)).1 (by decide)
  rw [h]
  have e440 : parseFloat? "440".data =
      some (((1 : Int) : ℚ) * mantissa [4, 4, 0] []) := rfl
  have e05 : parseFloat? "0.5".data =
      some (((1 : Int) : ℚ) * mantissa [0] [5]) := rfl
  have eamp : parseFloat? "amp".data = none := rfl
  have h440 : parseAtom "440" = Atom.float 440 := by
    simp only [parseAtom, e440]
    norm_num [mantissa, digitsVal]
  have h05 : parseAtom "0.5" = Atom.float (1 / 2) := by
    simp only [parseAtom, e05]
    norm_num [mantissa, digitsVal]
  have hamp : parseAtom "amp" = Atom.symbol "amp" := by
    simp only [parseAtom, eamp]
  simp [h440, h05, hamp]

/-- C9: `SendFloat("x", 3.5)` formats exactly the bytes `x 3.5;\n`
through the registered output callback, and feeding those bytes back into
a parser whose engine knows receiver `x` completes exactly one message: a
float event to receiver `x` with value 3.5, with the buffer left empty. -/
theorem C9_roundtrip :
    sendFloatMsg "x" (7 / 2) = "x 3.5;\n" ∧
    ProcessBuffer (fun _ => true) initState ("x 3.5;\n".data) =
      ({ buffer := [], events := [PdEvent.float "x" (7 / 2)] }, 1) := by
  constructor
  · have hlt : ¬ ((7 : ℚ) / 2 < 0) := by norm_num
    have hn : ((7 : ℚ) / 2).num = 7 := by norm_num
    have hd : ((7 : ℚ) / 2).den = 2 := by norm_num
    simp only [sendFloatMsg, fmtG, if_neg hlt, hn, hd]
    decide
  · have hstep : ProcessBuffer (fun _ => true) initState ("x 3.5;\n".data) =
        ({ buffer := [],
           events := [PdEvent.float "x" (((1 : Int) : ℚ) * mantissa [3] [5])] },
         1) := rfl
    have hval : ((1 : Int) : ℚ) * mantissa [3] [5] = 7 / 2 := by
      norm_num [mantissa, digitsVal]
    rw [hstep, hval]

end Fudi

end BarePD
